import Mathlib

/-!
Verification of the repetition parser combinators in
`src/framework/src/parsers/multi.rs`.

The Rust module defines five combinators over an abstract `Parser`
capability (`fn parse(&self, input: &str) -> Result<(Output, &str), Error>`):
`SepBy`, `Fold`, `FoldMut`, `Repeat` and `Many<P, N>`.

Shallow embedding conventions:
* the input view `&str` is a `List Char` (`Str`); consumption is returning
  a suffix;
* a parser is a pure function `Str → Except ε (α × Str)`; this mirrors the
  Rust signature `parse(&self, input)` together with the `Fn` bounds on the
  stored closures — nothing in the Rust types allows hidden mutation;
* the unbounded `loop`/`while let` loops of SepBy/Fold/FoldMut/Repeat are
  given an explicit fuel parameter counting loop iterations; `none` means
  the fuel ran out (the Rust loop would still be running), `some r` means
  the loop exited with result `r`.  `Many`'s loop is bounded by `N` in the
  source, so it needs no fuel;
* `Many`'s `PartiallyInit` guard is modelled with slots `Option α`
  (`none` = `MaybeUninit` slot not yet written).  Its `Drop` impl is
  modelled by `PartiallyInit.dropRun`, the list of teardown actions
  `assume_init_drop` performs, in order: entry `some a` records the
  destruction of element `a`, entry `none` records an
  `assume_init_drop` executed on a slot that holds no value
  (undefined behavior in the source).
-/

namespace Multi

/-- The input view `&str`, as a list of characters. -/
abbrev Str := List Char

/-- The `Parser` capability: `parse(input) -> Result<(Output, remainder), Error>`
with the error type `ε` fully opaque. -/
abbrev Parser (ε α : Type) : Type := Str → Except ε (α × Str)

/-- Embeds `pub struct SepBy<P, S> { parser: P, separator: S }` -/
structure SepBy (ε α β : Type) where
  parser : Parser ε α
  separator : Parser ε β

/-- Embeds `pub struct Fold<P, A, F> { parser: P, initial: A, func: F }` where
`F: Fn(A, P::Output) -> A`. -/
structure Fold (ε α A : Type) where
  parser : Parser ε α
  initial : A
  func : A → α → A

/-- Embeds `pub struct FoldMut<P, A, F> { parser: P, initial: A, func: F }` where
`F: Fn(&mut A, P::Output)`.  A `&mut A` updater is embedded as the function
`A → α → A` sending the accumulator before the call to the accumulator
after it. -/
structure FoldMut (ε α A : Type) where
  parser : Parser ε α
  initial : A
  func : A → α → A

/-- Embeds `pub struct Repeat<P> { parser: P }` -/
structure Repeat (ε α : Type) where
  parser : Parser ε α

/-- Embeds `pub struct Many<P, const N: usize> { parser: P }` -/
structure Many (ε α : Type) (N : Nat) where
  parser : Parser ε α

/-- The `loop { ... }` of `SepBy::parse` (multi.rs lines 100–112):
try `separator` on the current remainder; on failure return the collected
elements; on success try `parser` on the separator's remainder; on success
push the element and continue, on failure return the collected elements and
the remainder from before the separator attempt.  `fuel` bounds the number
of iterations; `none` means the source loop would still be running. -/
def sepByLoop (p : Parser ε α) (s : Parser ε β) :
    Nat → List α → Str → Option (Except ε (List α × Str))
  | 0, _, _ => none
  | fuel + 1, elements, remainder =>
    match s remainder with
    | .ok (_, afterSep) =>
      match p afterSep with
      | .ok (element, afterValue) => sepByLoop p s fuel (elements ++ [element]) afterValue
      | .error _ => some (.ok (elements, remainder))
    | .error _ => some (.ok (elements, remainder))

/-- Embeds `SepBy::parse` (multi.rs lines 96–113): parse one element (propagating
its error with `?`), then run the separator/element loop. -/
def SepBy.parse (self : SepBy ε α β) (fuel : Nat) (input : Str) :
    Option (Except ε (List α × Str)) :=
  match self.parser input with
  | .ok (element, remainder) => sepByLoop self.parser self.separator fuel [element] remainder
  | .error e => some (.error e)

/-- The `while let Ok(...)` loop of `Fold::parse` (multi.rs lines 127–130). -/
def foldLoop (p : Parser ε α) (f : A → α → A) :
    Nat → A → Str → Option (Except ε (A × Str))
  | 0, _, _ => none
  | fuel + 1, accumulator, remainder =>
    match p remainder with
    | .ok (value, newRemainder) => foldLoop p f fuel (f accumulator value) newRemainder
    | .error _ => some (.ok (accumulator, remainder))

/-- Embeds `Fold::parse` (multi.rs lines 124–132): clone the stored initial
accumulator, run the loop, return `Ok((accumulator, remainder))`. -/
def Fold.parse (self : Fold ε α A) (fuel : Nat) (input : Str) :
    Option (Except ε (A × Str)) :=
  foldLoop self.parser self.func fuel self.initial input

/-- The `while let Ok(...)` loop of `FoldMut::parse` (multi.rs lines
146–149); the in-place update `(self.func)(&mut accumulator, value)` is the
functional update of the accumulator. -/
def foldMutLoop (p : Parser ε α) (f : A → α → A) :
    Nat → A → Str → Option (Except ε (A × Str))
  | 0, _, _ => none
  | fuel + 1, accumulator, remainder =>
    match p remainder with
    | .ok (value, newRemainder) => foldMutLoop p f fuel (f accumulator value) newRemainder
    | .error _ => some (.ok (accumulator, remainder))

/-- Embeds `FoldMut::parse` (multi.rs lines 143–151). -/
def FoldMut.parse (self : FoldMut ε α A) (fuel : Nat) (input : Str) :
    Option (Except ε (A × Str)) :=
  foldMutLoop self.parser self.func fuel self.initial input

/-- The `while let Ok(...)` loop of `Repeat::parse` (multi.rs lines
165–168), keeping only the most recent output. -/
def repeatLoop (p : Parser ε α) :
    Nat → α → Str → Option (Except ε (α × Str))
  | 0, _, _ => none
  | fuel + 1, lastValue, remainder =>
    match p remainder with
    | .ok (value, newRemainder) => repeatLoop p fuel value newRemainder
    | .error _ => some (.ok (lastValue, remainder))

/-- Embeds `Repeat::parse` (multi.rs lines 160–170): the first application's error
is returned unchanged; afterwards loop keeping the last value. -/
def Repeat.parse (self : Repeat ε α) (fuel : Nat) (input : Str) :
    Option (Except ε (α × Str)) :=
  match self.parser input with
  | .ok (x, remainder) => repeatLoop self.parser fuel x remainder
  | .error e => some (.error e)

/-- The guard `struct PartiallyInit<T, const N: usize>` of `Many::parse`
(multi.rs lines 177–180): `memory` is the slot array (`none` = the
`MaybeUninit` slot was never written) and `count` the fill count. -/
structure PartiallyInit (α : Type) where
  memory : List (Option α)
  count : Nat

/-- Embeds `impl Drop for PartiallyInit` (multi.rs lines 182–190):
`for i in (0..count).rev() { memory[i].assume_init_drop() }`.  The result
lists the teardown actions in execution order: `some a` is the destructor
of element `a`; `none` is an `assume_init_drop` on a slot holding no
value, which is undefined behavior in the source. -/
def PartiallyInit.dropRun (self : PartiallyInit α) : List (Option α) :=
  (List.range self.count).reverse.map (fun i => self.memory.getD i none)

/-- The `while partially_init.count < N` loop of `Many::parse` (multi.rs
lines 198–203), phrased by structural recursion on `remaining = N - count`.
Returns the final guard state, `Ok remainder` or the propagated inner
error, and the number of inner-parser invocations made. -/
def manyLoop (p : Parser ε α) :
    Nat → PartiallyInit α → Str → PartiallyInit α × Except ε Str × Nat
  | 0, st, remainder => (st, .ok remainder, 0)
  | remaining + 1, st, remainder =>
    match p remainder with
    | .error e => (st, .error e, 1)
    | .ok (value, newRemainder) =>
      let r := manyLoop p remaining ⟨st.memory.set st.count (some value), st.count + 1⟩
        newRemainder
      (r.1, r.2.1, r.2.2 + 1)

/-- One observed run of `Many::parse`: the returned `ParseResult`, the
teardown actions performed by the `PartiallyInit` guard's `Drop` when the
call returns, and how often the inner parser was invoked. -/
structure ManyRun (ε α : Type) where
  result : Except ε (List α × Str)
  teardown : List (Option α)
  calls : Nat

/-- Embeds `Many::parse` (multi.rs lines 176–211), instrumented.  The guard starts
with all `N` slots unwritten and `count = 0`.  On an inner error the `?`
returns it and the guard is dropped as it stands.  On success the source
swaps a fresh `MaybeUninit::uninit_array()` into `partially_init.memory`
(the filled slots move out, `count` is left untouched) and the guard is
then dropped holding the fresh unwritten memory with the old `count`. -/
def Many.parseEv (N : Nat) (self : Many ε α N) (input : Str) : ManyRun ε α :=
  match manyLoop self.parser N ⟨List.replicate N none, 0⟩ input with
  | (st, .error e, calls) => ⟨.error e, st.dropRun, calls⟩
  | (st, .ok remainder, calls) =>
    ⟨.ok (st.memory.reduceOption, remainder),
      PartiallyInit.dropRun ⟨List.replicate N none, st.count⟩, calls⟩

/-- The `ParseResult` a caller of `Many::parse` observes. -/
def Many.parse (N : Nat) (self : Many ε α N) (input : Str) :
    Except ε (List α × Str) :=
  (Many.parseEv N self input).result

/-- Holds (as `Successes p rem vs rem'`) when, starting from `rem`, the parser `p`
succeeds on the successive remainders producing exactly the outputs `vs`
and ending at remainder `rem'`. -/
def Successes (p : Parser ε α) : Str → List α → Str → Prop
  | r, [], r' => r' = r
  | r, v :: vs, r' => ∃ r1, p r = .ok (v, r1) ∧ Successes p r1 vs r'

/-! ### Concrete parsers used to exercise the combinators -/

/-- Consumes one character and returns it; fails on empty input. -/
def charP : Parser Unit Char := fun s =>
  match s with
  | [] => .error ()
  | c :: rest => .ok (c, rest)

/-- Consumes one decimal digit and returns its value; fails otherwise. -/
def digitP : Parser Unit Nat := fun s =>
  match s with
  | [] => .error ()
  | c :: rest => if c.isDigit then .ok (c.toNat - 48, rest) else .error ()

/-- Consumes one comma; fails otherwise. -/
def commaP : Parser Unit Unit := fun s =>
  match s with
  | [] => .error ()
  | c :: rest => if c = ',' then .ok ((), rest) else .error ()

/-- Succeeds without consuming anything. -/
def unitP : Parser Unit Unit := fun s => .ok ((), s)

/-! ### List helpers -/

theorem set_append_cons (l : List γ) (a b : γ) (t : List γ) :
    (l ++ a :: t).set l.length b = l ++ b :: t := by
  induction l with
  | nil => rfl
  | cons x l ih =>
    show x :: ((l ++ a :: t).set l.length b) = x :: (l ++ b :: t)
    rw [ih]

theorem map_getD_range (xs : List γ) (d : γ) :
    (List.range xs.length).map (fun i => xs.getD i d) = xs := by
  induction xs with
  | nil => rfl
  | cons x xs ih =>
    rw [List.length_cons, List.range_succ_eq_map, List.map_cons, List.map_map]
    simp only [Function.comp_def, List.getD_cons_zero, List.getD_cons_succ]
    rw [ih]

theorem getD_replicate_none :
    ∀ (n i : Nat), (List.replicate n (none : Option α)).getD i none = none := by
  intro n
  induction n with
  | zero => intro i; cases i <;> rfl
  | succ m ih =>
    intro i
    cases i with
    | zero => rfl
    | succ j => exact ih j

/-- Dropping a guard whose first `count` slots hold exactly the elements of
`l` destroys exactly those elements, in reverse order. -/
theorem dropRun_filled (l : List α) (m : Nat) :
    PartiallyInit.dropRun ⟨l.map some ++ List.replicate m none, l.length⟩
      = (l.map some).reverse := by
  unfold PartiallyInit.dropRun
  rw [List.map_reverse]
  congr 1
  have h : ∀ i ∈ List.range l.length,
      (l.map some ++ List.replicate m none).getD i none = (l.map some).getD i none := by
    intro i hi
    have hlt : i < (l.map some).length := by
      rw [List.length_map]; exact List.mem_range.mp hi
    exact List.getD_append _ _ _ _ hlt
  rw [List.map_congr_left h]
  have h2 := map_getD_range (l.map some) none
  rwa [List.length_map] at h2

/-- Dropping a guard holding `n` unwritten slots with `count = n` performs
`n` teardown actions, each an `assume_init_drop` on a slot with no value. -/
theorem dropRun_unfilled (n : Nat) :
    PartiallyInit.dropRun ⟨List.replicate n (none : Option α), n⟩
      = List.replicate n none := by
  unfold PartiallyInit.dropRun
  have h : ∀ i ∈ (List.range n).reverse,
      (List.replicate n (none : Option α)).getD i none = (fun _ => (none : Option α)) i :=
    fun i _ => getD_replicate_none n i
  rw [List.map_congr_left h]
  simp [List.eq_replicate_iff]

/-! ### The `Many` loop, on the failure and success paths -/

theorem manyLoop_err (p : Parser ε α) (e : ε) :
    ∀ (vs built : List α) (remaining : Nat) (r rFail : Str),
      Successes p r vs rFail → p rFail = .error e → vs.length < remaining →
      manyLoop p remaining ⟨built.map some ++ List.replicate remaining none, built.length⟩ r
        = (⟨(built ++ vs).map some ++ List.replicate (remaining - vs.length) none,
            (built ++ vs).length⟩, .error e, vs.length + 1) := by
  intro vs
  induction vs with
  | nil =>
    intro built remaining r rFail h hf hlt
    have hr : rFail = r := h
    subst hr
    obtain ⟨m, rfl⟩ : ∃ m, remaining = m + 1 := ⟨remaining - 1, by omega⟩
    simp [manyLoop, hf]
  | cons v vs ih =>
    intro built remaining r rFail h hf hlt
    obtain ⟨r1, hp, hrest⟩ := h
    obtain ⟨m, rfl⟩ : ∃ m, remaining = m + 1 := ⟨remaining - 1, by omega⟩
    have hmem : (built.map some ++ List.replicate (m + 1) (none : Option α)).set
        built.length (some v)
        = (built ++ [v]).map some ++ List.replicate m none := by
      rw [List.replicate_succ]
      have hset := set_append_cons (built.map some) (none : Option α) (some v)
        (List.replicate m none)
      rw [List.length_map] at hset
      rw [hset, List.map_append]
      simp
    simp only [manyLoop, hp]
    rw [hmem]
    have hcount : built.length + 1 = (built ++ [v]).length := by simp
    rw [hcount]
    rw [ih (built ++ [v]) m r1 rFail hrest hf (by simpa using Nat.lt_of_succ_lt_succ hlt)]
    simp only [List.append_assoc, List.singleton_append, List.length_cons, List.length_append]
    rw [Nat.succ_sub_succ]

theorem manyLoop_ok (p : Parser ε α) :
    ∀ (vs built : List α) (r rFinal : Str), Successes p r vs rFinal →
      manyLoop p vs.length ⟨built.map some ++ List.replicate vs.length none, built.length⟩ r
        = (⟨(built ++ vs).map some, (built ++ vs).length⟩, .ok rFinal, vs.length) := by
  intro vs
  induction vs with
  | nil =>
    intro built r rFinal h
    have hr : rFinal = r := h
    subst hr
    simp [manyLoop]
  | cons v vs ih =>
    intro built r rFinal h
    obtain ⟨r1, hp, hrest⟩ := h
    have hmem : (built.map some ++ List.replicate (vs.length + 1) (none : Option α)).set
        built.length (some v)
        = (built ++ [v]).map some ++ List.replicate vs.length none := by
      rw [List.replicate_succ]
      have hset := set_append_cons (built.map some) (none : Option α) (some v)
        (List.replicate vs.length none)
      rw [List.length_map] at hset
      rw [hset, List.map_append]
      simp
    simp only [List.length_cons, manyLoop, hp]
    rw [hmem]
    have hcount : built.length + 1 = (built ++ [v]).length := by simp
    rw [hcount]
    rw [ih (built ++ [v]) r1 rFinal hrest]
    simp [List.append_assoc]

/-! ### Claims -/

/-- Claim C7: `Many(parser, 0)` succeeds for every inner parser and every
input, returning the empty fixed-length sequence and the original input as
remainder, without ever invoking the inner parser (`calls = 0`); the guard
performs no teardown actions. -/
theorem many_zero_trivial_success (p : Parser ε α) (input : Str) :
    Many.parseEv 0 ⟨p⟩ input = ⟨.ok ([], input), [], 0⟩ := rfl

/-- Claim C1 (code bug): on full success of `Many(charP, 1)` on `"a"`,
the caller receives the one-element sequence, but the teardown guard is
not disarmed: `count` is still `1` when the guard is dropped after its
memory was swapped out, so its `Drop` performs one `assume_init_drop` on a
slot holding no value (`teardown = [none]`) — undefined behavior — instead
of the empty teardown the disarmed guard of the claim would perform. -/
theorem many_success_guard_still_armed :
    Many.parseEv 1 ⟨charP⟩ ['a'] = ⟨.ok (['a'], []), [none], 1⟩ := rfl

/-- Claim C2: if the k-th application of the inner parser fails (k ≤ N,
i.e. after `vs` successes with `vs.length = k − 1 < N`), `Many::parse`
fails with exactly that application's error, returns no partial sequence,
and the guard's teardown destroys exactly the `k − 1` produced elements,
once each, in reverse order of acquisition. -/
theorem many_partial_failure_teardown (p : Parser ε α) (N : Nat)
    (input rFail : Str) (vs : List α) (e : ε)
    (hs : Successes p input vs rFail) (hf : p rFail = .error e) (hlt : vs.length < N) :
    Many.parseEv N ⟨p⟩ input = ⟨.error e, (vs.map some).reverse, vs.length + 1⟩ := by
  have h0 := manyLoop_err p e vs [] N input rFail hs hf hlt
  simp only [List.map_nil, List.nil_append, List.length_nil] at h0
  have hdef : Many.parseEv N ⟨p⟩ input =
      match manyLoop p N ⟨List.replicate N none, 0⟩ input with
      | (st, .error e, calls) => ⟨.error e, st.dropRun, calls⟩
      | (st, .ok remainder, calls) =>
        ⟨.ok (st.memory.reduceOption, remainder),
          PartiallyInit.dropRun ⟨List.replicate N none, st.count⟩, calls⟩ := rfl
  rw [hdef, h0]
  have hdrop := dropRun_filled vs (N - vs.length)
  simp only [List.length_append, List.length_nil]
  rw [hdrop]

theorem many_partial_failure_teardown_witness :
    Successes charP ['a', 'b'] ['a', 'b'] [] ∧ charP [] = .error () ∧ 2 < 3 ∧
      Many.parseEv 3 ⟨charP⟩ ['a', 'b'] = ⟨.error (), [some 'b', some 'a'], 3⟩ := by
  refine ⟨⟨['b'], rfl, ⟨[], rfl, rfl⟩⟩, rfl, by omega, ?_⟩
  exact many_partial_failure_teardown charP 3 ['a', 'b'] [] ['a', 'b'] ()
    ⟨['b'], rfl, ⟨[], rfl, rfl⟩⟩ rfl (by decide)

/-- Claim C3: the combinators never wrap or alter an inner error:
`SepBy` failing on its first (hence zeroth successful) element, `Repeat`
failing on its first application, and `Many(N)` failing before reaching
`N` applications all return exactly the triggering application's error. -/
theorem inner_error_propagated_unchanged {ε α β : Type} (input : Str) :
    (∀ (sb : SepBy ε α β) (fuel : Nat) (e : ε),
        sb.parser input = .error e → sb.parse fuel input = some (.error e)) ∧
    (∀ (rp : Repeat ε α) (fuel : Nat) (e : ε),
        rp.parser input = .error e → rp.parse fuel input = some (.error e)) ∧
    (∀ (p : Parser ε α) (N : Nat) (vs : List α) (rFail : Str) (e : ε),
        Successes p input vs rFail → p rFail = .error e → vs.length < N →
        Many.parse N ⟨p⟩ input = .error e) := by
  refine ⟨?_, ?_, ?_⟩
  · intro sb fuel e he
    unfold SepBy.parse
    rw [he]
  · intro rp fuel e he
    unfold Repeat.parse
    rw [he]
  · intro p N vs rFail e hs hf hlt
    have h0 := manyLoop_err p e vs [] N input rFail hs hf hlt
    simp only [List.map_nil, List.nil_append, List.length_nil] at h0
    have hdef : Many.parse N ⟨p⟩ input =
        (match manyLoop p N ⟨List.replicate N none, 0⟩ input with
        | (st, .error e, calls) => (⟨.error e, st.dropRun, calls⟩ : ManyRun ε α)
        | (st, .ok remainder, calls) =>
          ⟨.ok (st.memory.reduceOption, remainder),
            PartiallyInit.dropRun ⟨List.replicate N none, st.count⟩, calls⟩).result := rfl
    rw [hdef, h0]

theorem inner_error_propagated_unchanged_witness :
    SepBy.parse ⟨digitP, commaP⟩ 5 [] = some (.error ()) ∧
    Repeat.parse ⟨digitP⟩ 5 [] = some (.error ()) ∧
    Many.parse 3 ⟨charP⟩ ['a'] = .error () := by
  refine ⟨?_, ?_, ?_⟩
  · exact (@inner_error_propagated_unchanged Unit Nat Unit []).1 ⟨digitP, commaP⟩ 5 () rfl
  · exact (@inner_error_propagated_unchanged Unit Nat Unit []).2.1 ⟨digitP⟩ 5 () rfl
  · exact (@inner_error_propagated_unchanged Unit Char Unit ['a']).2.2 charP 3 ['a'] [] ()
      ⟨[], rfl, rfl⟩ rfl (by decide)

/-! ### `Fold` and `FoldMut` lemmas -/

theorem foldLoop_no_error (p : Parser ε α) (f : A → α → A) :
    ∀ (fuel : Nat) (acc : A) (r : Str) (res : Except ε (A × Str)),
      foldLoop p f fuel acc r = some res → ∃ a rem, res = .ok (a, rem) := by
  intro fuel
  induction fuel with
  | zero => intro acc r res h; simp [foldLoop] at h
  | succ n ih =>
    intro acc r res h
    simp only [foldLoop] at h
    cases hp : p r with
    | error e =>
      rw [hp] at h
      simp at h
      exact ⟨acc, r, h.symm⟩
    | ok x =>
      obtain ⟨v, nr⟩ := x
      rw [hp] at h
      exact ih (f acc v) nr res h

/-- Lemma: `FoldMut::parse` and `Fold::parse` run the same loop: the in-place
`combine` of the former is the functional `combine` of the latter. -/
theorem foldMutLoop_eq_foldLoop (p : Parser ε α) (f : A → α → A) :
    ∀ (fuel : Nat) (acc : A) (r : Str),
      foldMutLoop p f fuel acc r = foldLoop p f fuel acc r := by
  intro fuel
  induction fuel with
  | zero => intro acc r; rfl
  | succ n ih =>
    intro acc r
    simp only [foldMutLoop, foldLoop]
    cases hp : p r with
    | error e => rfl
    | ok x =>
      obtain ⟨v, nr⟩ := x
      exact ih (f acc v) nr

/-- Claim C4: `Fold` and `FoldMut` never fail — whenever the loop exits,
the result is `Ok`; and when the inner parser fails on the very first
application, the result is the fresh copy of the stored initial
accumulator paired with the original input as remainder. -/
theorem fold_foldMut_never_fail {ε α A : Type} (fd : Fold ε α A) (fm : FoldMut ε α A)
    (input : Str) :
    (∀ (fuel : Nat) (res : Except ε (A × Str)), fd.parse fuel input = some res →
        ∃ a r, res = .ok (a, r)) ∧
    (∀ (fuel : Nat) (res : Except ε (A × Str)), fm.parse fuel input = some res →
        ∃ a r, res = .ok (a, r)) ∧
    (∀ (fuel : Nat) (e : ε), fd.parser input = .error e →
        fd.parse (fuel + 1) input = some (.ok (fd.initial, input))) ∧
    (∀ (fuel : Nat) (e : ε), fm.parser input = .error e →
        fm.parse (fuel + 1) input = some (.ok (fm.initial, input))) := by
  refine ⟨?_, ?_, ?_, ?_⟩
  · intro fuel res h
    exact foldLoop_no_error fd.parser fd.func fuel fd.initial input res h
  · intro fuel res h
    rw [FoldMut.parse, foldMutLoop_eq_foldLoop] at h
    exact foldLoop_no_error fm.parser fm.func fuel fm.initial input res h
  · intro fuel e he
    rw [Fold.parse]
    simp [foldLoop, he]
  · intro fuel e he
    rw [FoldMut.parse]
    simp [foldMutLoop, he]

theorem fold_foldMut_never_fail_witness :
    Fold.parse ⟨digitP, 0, fun a v => a + v⟩ 4 ['x'] = some (.ok (0, ['x'])) ∧
    FoldMut.parse ⟨digitP, 0, fun a v => a + v⟩ 4 ['x'] = some (.ok (0, ['x'])) := by
  have h := fold_foldMut_never_fail ⟨digitP, 0, fun a v => a + v⟩
    ⟨digitP, 0, fun a v => a + v⟩ ['x']
  exact ⟨h.2.2.1 3 () rfl, h.2.2.2 3 () rfl⟩

/-- Claim C5: in `SepBy`'s loop, whenever the separator succeeds on the
current remainder but the element parser then fails on the separator's
remainder, the loop returns the elements collected so far together with
the remainder from before the separator attempt: the (separator, element)
unit is discarded atomically and consumes nothing. -/
theorem sepBy_unit_discard_backtracks {ε α β : Type} (self : SepBy ε α β)
    (fuel : Nat) (elements : List α) (remainder afterSep : Str) (w : β) (e : ε)
    (hsep : self.separator remainder = .ok (w, afterSep))
    (helem : self.parser afterSep = .error e) :
    sepByLoop self.parser self.separator (fuel + 1) elements remainder
      = some (.ok (elements, remainder)) := by
  simp [sepByLoop, hsep, helem]

theorem sepBy_unit_discard_backtracks_witness :
    commaP [','] = .ok ((), []) ∧ digitP [] = .error () ∧
    sepByLoop digitP commaP 5 [1, 2] [','] = some (.ok ([1, 2], [','])) ∧
    SepBy.parse ⟨digitP, commaP⟩ 9 ['1', ',', '2', ','] = some (.ok ([1, 2], [','])) := by
  refine ⟨rfl, rfl, ?_, rfl⟩
  exact sepBy_unit_discard_backtracks ⟨digitP, commaP⟩ 4 [1, 2] [','] [] () () rfl rfl

/-- Claim C6: `Fold` and `FoldMut` are behaviorally equivalent — for every
inner parser, initial accumulator, pure total combining function `f` (and
`FoldMut` holding the in-place function that assigns `f`'s result), every
fuel and every input, the two `parse` functions agree exactly. -/
theorem foldMut_equiv_fold {ε α A : Type} (p : Parser ε α) (initial : A)
    (f : A → α → A) (fuel : Nat) (input : Str) :
    FoldMut.parse ⟨p, initial, f⟩ fuel input = Fold.parse ⟨p, initial, f⟩ fuel input :=
  foldMutLoop_eq_foldLoop p f fuel initial input

/-! ### The suffix invariant -/

/-- A parser whose successful remainder is always a suffix of its input. -/
def SuffixReturning (p : Parser ε α) : Prop :=
  ∀ input v r, p input = .ok (v, r) → r <:+ input

theorem sepByLoop_suffix (p : Parser ε α) (s : Parser ε β)
    (hp : SuffixReturning p) (hs : SuffixReturning s) :
    ∀ (fuel : Nat) (elements res : List α) (r rOut : Str),
      sepByLoop p s fuel elements r = some (.ok (res, rOut)) → rOut <:+ r := by
  intro fuel
  induction fuel with
  | zero => intro _ _ r _ h; simp [sepByLoop] at h
  | succ n ih =>
    intro elements res r rOut h
    simp only [sepByLoop] at h
    cases hsep : s r with
    | error e =>
      rw [hsep] at h
      simp at h
      obtain ⟨-, rfl⟩ := h
      exact List.suffix_refl r
    | ok x =>
      obtain ⟨w, afterSep⟩ := x
      simp only [hsep] at h
      cases hel : p afterSep with
      | error e =>
        rw [hel] at h
        simp at h
        obtain ⟨-, rfl⟩ := h
        exact List.suffix_refl r
      | ok y =>
        obtain ⟨el, afterValue⟩ := y
        rw [hel] at h
        exact ((ih (elements ++ [el]) res afterValue rOut h).trans
          (hp afterSep el afterValue hel)).trans (hs r w afterSep hsep)

theorem foldLoop_suffix (p : Parser ε α) (f : A → α → A) (hp : SuffixReturning p) :
    ∀ (fuel : Nat) (acc a : A) (r rOut : Str),
      foldLoop p f fuel acc r = some (.ok (a, rOut)) → rOut <:+ r := by
  intro fuel
  induction fuel with
  | zero => intro _ _ r _ h; simp [foldLoop] at h
  | succ n ih =>
    intro acc a r rOut h
    simp only [foldLoop] at h
    cases hpr : p r with
    | error e =>
      rw [hpr] at h
      simp at h
      obtain ⟨-, rfl⟩ := h
      exact List.suffix_refl r
    | ok x =>
      obtain ⟨v, nr⟩ := x
      rw [hpr] at h
      exact (ih (f acc v) a nr rOut h).trans (hp r v nr hpr)

theorem repeatLoop_suffix (p : Parser ε α) (hp : SuffixReturning p) :
    ∀ (fuel : Nat) (lastValue a : α) (r rOut : Str),
      repeatLoop p fuel lastValue r = some (.ok (a, rOut)) → rOut <:+ r := by
  intro fuel
  induction fuel with
  | zero => intro _ _ r _ h; simp [repeatLoop] at h
  | succ n ih =>
    intro lastValue a r rOut h
    simp only [repeatLoop] at h
    cases hpr : p r with
    | error e =>
      rw [hpr] at h
      simp at h
      obtain ⟨-, rfl⟩ := h
      exact List.suffix_refl r
    | ok x =>
      obtain ⟨v, nr⟩ := x
      rw [hpr] at h
      exact (ih v a nr rOut h).trans (hp r v nr hpr)

theorem manyLoop_suffix (p : Parser ε α) (hp : SuffixReturning p) :
    ∀ (remaining : Nat) (st : PartiallyInit α) (r : Str) (st' : PartiallyInit α)
      (rOut : Str) (calls : Nat),
      manyLoop p remaining st r = (st', .ok rOut, calls) → rOut <:+ r := by
  intro remaining
  induction remaining with
  | zero =>
    intro st r st' rOut calls h
    simp only [manyLoop, Prod.mk.injEq] at h
    obtain ⟨-, h2, -⟩ := h
    rw [Except.ok.injEq] at h2
    subst h2
    exact List.suffix_refl r
  | succ n ih =>
    intro st r st' rOut calls h
    simp only [manyLoop] at h
    cases hpr : p r with
    | error e =>
      rw [hpr] at h
      simp at h
    | ok x =>
      obtain ⟨v, nr⟩ := x
      rw [hpr] at h
      simp only [Prod.mk.injEq] at h
      obtain ⟨-, h2, -⟩ := h
      have := ih ⟨st.memory.set st.count (some v), st.count + 1⟩ nr
        (manyLoop p n ⟨st.memory.set st.count (some v), st.count + 1⟩ nr).1 rOut
        (manyLoop p n ⟨st.memory.set st.count (some v), st.count + 1⟩ nr).2.2 ?_
      · exact this.trans (hp r v nr hpr)
      · rw [← h2]

/-- Claim C8: under the assumption that every inner parser returns a
suffix of its own input on success, every combinator's successful
remainder is a suffix (never longer) of the input the combinator was
given. -/
theorem remainder_is_suffix_of_input {ε α β A : Type} :
    (∀ (sb : SepBy ε α β), SuffixReturning sb.parser → SuffixReturning sb.separator →
      ∀ (fuel : Nat) (input : Str) (res : List α) (rOut : Str),
        sb.parse fuel input = some (.ok (res, rOut)) → rOut <:+ input) ∧
    (∀ (fd : Fold ε α A), SuffixReturning fd.parser →
      ∀ (fuel : Nat) (input : Str) (a : A) (rOut : Str),
        fd.parse fuel input = some (.ok (a, rOut)) → rOut <:+ input) ∧
    (∀ (fm : FoldMut ε α A), SuffixReturning fm.parser →
      ∀ (fuel : Nat) (input : Str) (a : A) (rOut : Str),
        fm.parse fuel input = some (.ok (a, rOut)) → rOut <:+ input) ∧
    (∀ (rp : Repeat ε α), SuffixReturning rp.parser →
      ∀ (fuel : Nat) (input : Str) (v : α) (rOut : Str),
        rp.parse fuel input = some (.ok (v, rOut)) → rOut <:+ input) ∧
    (∀ (N : Nat) (mn : Many ε α N), SuffixReturning mn.parser →
      ∀ (input : Str) (vs : List α) (rOut : Str),
        Many.parse N mn input = .ok (vs, rOut) → rOut <:+ input) := by
  refine ⟨?_, ?_, ?_, ?_, ?_⟩
  · intro sb hp hs fuel input res rOut h
    rw [SepBy.parse] at h
    cases hfirst : sb.parser input with
    | error e => rw [hfirst] at h; simp at h
    | ok x =>
      obtain ⟨el, rem⟩ := x
      rw [hfirst] at h
      exact (sepByLoop_suffix sb.parser sb.separator hp hs fuel [el] res rem rOut h).trans
        (hp input el rem hfirst)
  · intro fd hp fuel input a rOut h
    exact foldLoop_suffix fd.parser fd.func hp fuel fd.initial a input rOut h
  · intro fm hp fuel input a rOut h
    rw [FoldMut.parse, foldMutLoop_eq_foldLoop] at h
    exact foldLoop_suffix fm.parser fm.func hp fuel fm.initial a input rOut h
  · intro rp hp fuel input v rOut h
    rw [Repeat.parse] at h
    cases hfirst : rp.parser input with
    | error e => rw [hfirst] at h; simp at h
    | ok x =>
      obtain ⟨x0, rem⟩ := x
      rw [hfirst] at h
      exact (repeatLoop_suffix rp.parser hp fuel x0 v rem rOut h).trans
        (hp input x0 rem hfirst)
  · intro N mn hp input vs rOut h
    rw [Many.parse, Many.parseEv] at h
    rcases hm : manyLoop mn.parser N ⟨List.replicate N none, 0⟩ input with ⟨st, res2, calls⟩
    rw [hm] at h
    cases res2 with
    | error e => simp at h
    | ok rem =>
      simp only [ManyRun.result, Except.ok.injEq, Prod.mk.injEq] at h
      obtain ⟨-, rfl⟩ := h
      exact manyLoop_suffix mn.parser hp N ⟨List.replicate N none, 0⟩ input st rem calls hm

theorem digitP_suffixReturning : SuffixReturning digitP := by
  intro input v r h
  cases input with
  | nil => simp [digitP] at h
  | cons c rest =>
    simp only [digitP] at h
    by_cases hc : c.isDigit
    · rw [if_pos hc] at h
      cases h
      first
      | exact List.suffix_cons c rest
      | exact List.suffix_cons c r
    · rw [if_neg hc] at h
      simp at h

theorem commaP_suffixReturning : SuffixReturning commaP := by
  intro input v r h
  cases input with
  | nil => simp [commaP] at h
  | cons c rest =>
    simp only [commaP] at h
    by_cases hc : c = ','
    · rw [if_pos hc] at h
      cases h
      first
      | exact List.suffix_cons c rest
      | exact List.suffix_cons c r
    · rw [if_neg hc] at h
      simp at h

theorem remainder_is_suffix_of_input_witness :
    SepBy.parse ⟨digitP, commaP⟩ 9 ['1', ',', '2'] = some (.ok ([1, 2], [])) ∧
    ([] : Str) <:+ ['1', ',', '2'] := by
  refine ⟨rfl, ?_⟩
  exact (@remainder_is_suffix_of_input Unit Nat Unit Nat).1 ⟨digitP, commaP⟩
    digitP_suffixReturning commaP_suffixReturning 9 ['1', ',', '2'] [1, 2] [] rfl

/-! ### Calls as observed by a caller: `fn parse(&self, ...)` returns its
result and hands the combinator instance back untouched — the `&self`
receiver together with the `Fn` bounds on the stored closures rules out
any mutation of the instance, and `Fold`/`FoldMut` clone their stored
initial accumulator afresh inside every call. -/

def SepBy.parseCall (self : SepBy ε α β) (fuel : Nat) (input : Str) :
    Option (Except ε (List α × Str)) × SepBy ε α β :=
  (self.parse fuel input, self)

def Fold.parseCall (self : Fold ε α A) (fuel : Nat) (input : Str) :
    Option (Except ε (A × Str)) × Fold ε α A :=
  (self.parse fuel input, self)

def FoldMut.parseCall (self : FoldMut ε α A) (fuel : Nat) (input : Str) :
    Option (Except ε (A × Str)) × FoldMut ε α A :=
  (self.parse fuel input, self)

def Repeat.parseCall (self : Repeat ε α) (fuel : Nat) (input : Str) :
    Option (Except ε (α × Str)) × Repeat ε α :=
  (self.parse fuel input, self)

def Many.parseCall (N : Nat) (self : Many ε α N) (input : Str) :
    ManyRun ε α × Many ε α N :=
  (Many.parseEv N self input, self)

/-- Claim C9: for every combinator instance, a `parse` call leaves the
instance exactly as it was, and running `parse` a second time on the
instance coming out of the first call yields the identical result: no
state survives across separate calls. -/
theorem two_run_determinism {ε α β A : Type} (N : Nat)
    (sb : SepBy ε α β) (fd : Fold ε α A) (fm : FoldMut ε α A)
    (rp : Repeat ε α) (mn : Many ε α N) (fuel : Nat) (input : Str) :
    ((sb.parseCall fuel input).2 = sb ∧
      ((sb.parseCall fuel input).2.parseCall fuel input).1 = (sb.parseCall fuel input).1) ∧
    ((fd.parseCall fuel input).2 = fd ∧
      ((fd.parseCall fuel input).2.parseCall fuel input).1 = (fd.parseCall fuel input).1) ∧
    ((fm.parseCall fuel input).2 = fm ∧
      ((fm.parseCall fuel input).2.parseCall fuel input).1 = (fm.parseCall fuel input).1) ∧
    ((rp.parseCall fuel input).2 = rp ∧
      ((rp.parseCall fuel input).2.parseCall fuel input).1 = (rp.parseCall fuel input).1) ∧
    ((Many.parseCall N mn input).2 = mn ∧
      (Many.parseCall N (Many.parseCall N mn input).2 input).1 = (Many.parseCall N mn input).1) :=
  ⟨⟨rfl, rfl⟩, ⟨rfl, rfl⟩, ⟨rfl, rfl⟩, ⟨rfl, rfl⟩, ⟨rfl, rfl⟩⟩

/-! ### Termination -/

/-- A parser that strictly consumes input on every success. -/
def Consuming (p : Parser ε α) : Prop :=
  ∀ input v r, p input = .ok (v, r) → r.length < input.length

theorem foldLoop_total (p : Parser ε α) (f : A → α → A) (hp : Consuming p) :
    ∀ (fuel : Nat) (acc : A) (r : Str), r.length < fuel →
      ∃ res, foldLoop p f fuel acc r = some res := by
  intro fuel
  induction fuel with
  | zero => intro _ r h; exact absurd h (Nat.not_lt_zero _)
  | succ n ih =>
    intro acc r hr
    cases hpr : p r with
    | error e => exact ⟨.ok (acc, r), by simp [foldLoop, hpr]⟩
    | ok x =>
      obtain ⟨v, nr⟩ := x
      have hlen := hp r v nr hpr
      obtain ⟨res, hres⟩ := ih (f acc v) nr (by omega)
      exact ⟨res, by simp [foldLoop, hpr, hres]⟩

theorem repeatLoop_total (p : Parser ε α) (hp : Consuming p) :
    ∀ (fuel : Nat) (lastValue : α) (r : Str), r.length < fuel →
      ∃ res, repeatLoop p fuel lastValue r = some res := by
  intro fuel
  induction fuel with
  | zero => intro _ r h; exact absurd h (Nat.not_lt_zero _)
  | succ n ih =>
    intro lastValue r hr
    cases hpr : p r with
    | error e => exact ⟨.ok (lastValue, r), by simp [repeatLoop, hpr]⟩
    | ok x =>
      obtain ⟨v, nr⟩ := x
      have hlen := hp r v nr hpr
      obtain ⟨res, hres⟩ := ih v nr (by omega)
      exact ⟨res, by simp [repeatLoop, hpr, hres]⟩

theorem sepByLoop_total (p : Parser ε α) (s : Parser ε β)
    (hp : Consuming p) (hs : Consuming s) :
    ∀ (fuel : Nat) (elements : List α) (r : Str), r.length < fuel →
      ∃ res, sepByLoop p s fuel elements r = some res := by
  intro fuel
  induction fuel with
  | zero => intro _ r h; exact absurd h (Nat.not_lt_zero _)
  | succ n ih =>
    intro elements r hr
    cases hsep : s r with
    | error e => exact ⟨.ok (elements, r), by simp [sepByLoop, hsep]⟩
    | ok x =>
      obtain ⟨w, afterSep⟩ := x
      cases hel : p afterSep with
      | error e => exact ⟨.ok (elements, r), by simp [sepByLoop, hsep, hel]⟩
      | ok y =>
        obtain ⟨el, afterValue⟩ := y
        have h1 := hs r w afterSep hsep
        have h2 := hp afterSep el afterValue hel
        obtain ⟨res, hres⟩ := ih (elements ++ [el]) afterValue (by omega)
        exact ⟨res, by simp [sepByLoop, hsep, hel, hres]⟩

theorem foldLoop_unitP_none (f : A → Unit → A) :
    ∀ (fuel : Nat) (acc : A) (r : Str), foldLoop unitP f fuel acc r = none := by
  intro fuel
  induction fuel with
  | zero => intro _ _; rfl
  | succ n ih => intro acc r; simp [foldLoop, unitP, ih]

theorem repeatLoop_unitP_none :
    ∀ (fuel : Nat) (lastValue : Unit) (r : Str), repeatLoop unitP fuel lastValue r = none := by
  intro fuel
  induction fuel with
  | zero => intro _ _; rfl
  | succ n ih => intro lastValue r; simp [repeatLoop, unitP, ih]

theorem sepByLoop_unitP_none :
    ∀ (fuel : Nat) (elements : List Unit) (r : Str),
      sepByLoop unitP unitP fuel elements r = none := by
  intro fuel
  induction fuel with
  | zero => intro _ _; rfl
  | succ n ih => intro elements r; simp [sepByLoop, unitP, ih]

theorem manyLoop_calls_le (p : Parser ε α) :
    ∀ (remaining : Nat) (st : PartiallyInit α) (r : Str),
      (manyLoop p remaining st r).2.2 ≤ remaining := by
  intro remaining
  induction remaining with
  | zero => intro st r; exact Nat.le_refl 0
  | succ n ih =>
    intro st r
    simp only [manyLoop]
    cases hpr : p r with
    | error e => simp
    | ok x =>
      obtain ⟨v, nr⟩ := x
      simp only
      have := ih ⟨st.memory.set st.count (some v), st.count + 1⟩ nr
      omega

/-- Claim C10: with inner parsers that strictly consume on every success,
the loops of `SepBy`, `Fold`, `FoldMut` and `Repeat` all terminate (fuel
`input.length + 1` already suffices); with the non-consuming always-
succeeding parser they run forever (no fuel is ever enough); and `Many`'s
loop needs no such assumption — its fill count is bounded by `N`, so the
inner parser is invoked at most `N` times on any input. -/
theorem loops_terminate_with_consuming_parsers {ε α β A : Type} :
    (∀ (sb : SepBy ε α β), Consuming sb.parser → Consuming sb.separator →
      ∀ input : Str, ∃ res, sb.parse (input.length + 1) input = some res) ∧
    (∀ (fd : Fold ε α A), Consuming fd.parser →
      ∀ input : Str, ∃ res, fd.parse (input.length + 1) input = some res) ∧
    (∀ (fm : FoldMut ε α A), Consuming fm.parser →
      ∀ input : Str, ∃ res, fm.parse (input.length + 1) input = some res) ∧
    (∀ (rp : Repeat ε α), Consuming rp.parser →
      ∀ input : Str, ∃ res, rp.parse (input.length + 1) input = some res) ∧
    ((∀ (f : A → Unit → A) (initial : A) (fuel : Nat) (input : Str),
        Fold.parse ⟨unitP, initial, f⟩ fuel input = none) ∧
      (∀ (f : A → Unit → A) (initial : A) (fuel : Nat) (input : Str),
        FoldMut.parse ⟨unitP, initial, f⟩ fuel input = none) ∧
      (∀ (fuel : Nat) (input : Str), Repeat.parse ⟨unitP⟩ fuel input = none) ∧
      (∀ (fuel : Nat) (input : Str), SepBy.parse ⟨unitP, unitP⟩ fuel input = none)) ∧
    (∀ (N : Nat) (mn : Many ε α N) (input : Str),
      (Many.parseEv N mn input).calls ≤ N) := by
  refine ⟨?_, ?_, ?_, ?_, ⟨?_, ?_, ?_, ?_⟩, ?_⟩
  · intro sb hp hs input
    rw [SepBy.parse]
    cases hfirst : sb.parser input with
    | error e => exact ⟨.error e, rfl⟩
    | ok x =>
      obtain ⟨el, rem⟩ := x
      have hlen := hp input el rem hfirst
      exact sepByLoop_total sb.parser sb.separator hp hs (input.length + 1) [el] rem
        (by omega)
  · intro fd hp input
    exact foldLoop_total fd.parser fd.func hp (input.length + 1) fd.initial input
      (Nat.lt_succ_self _)
  · intro fm hp input
    rw [FoldMut.parse, foldMutLoop_eq_foldLoop]
    exact foldLoop_total fm.parser fm.func hp (input.length + 1) fm.initial input
      (Nat.lt_succ_self _)
  · intro rp hp input
    rw [Repeat.parse]
    cases hfirst : rp.parser input with
    | error e => exact ⟨.error e, rfl⟩
    | ok x =>
      obtain ⟨x0, rem⟩ := x
      have hlen := hp input x0 rem hfirst
      exact repeatLoop_total rp.parser hp (input.length + 1) x0 rem (by omega)
  · intro f initial fuel input
    exact foldLoop_unitP_none f fuel initial input
  · intro f initial fuel input
    rw [FoldMut.parse, foldMutLoop_eq_foldLoop]
    exact foldLoop_unitP_none f fuel initial input
  · intro fuel input
    rw [Repeat.parse]
    simp only [unitP]
    exact repeatLoop_unitP_none fuel () input
  · intro fuel input
    rw [SepBy.parse]
    simp only [unitP]
    exact sepByLoop_unitP_none fuel [()] input
  · intro N mn input
    rw [Many.parseEv]
    rcases hm : manyLoop mn.parser N ⟨List.replicate N none, 0⟩ input with ⟨st, res2, calls⟩
    have hle := manyLoop_calls_le mn.parser N ⟨List.replicate N none, 0⟩ input
    rw [hm] at hle
    cases res2 with
    | error e => simpa using hle
    | ok rem => simpa using hle

theorem charP_consuming : Consuming charP := by
  intro input v r h
  cases input with
  | nil => simp [charP] at h
  | cons c rest =>
    simp only [charP] at h
    cases h
    simp

theorem digitP_consuming : Consuming digitP := by
  intro input v r h
  cases input with
  | nil => simp [digitP] at h
  | cons c rest =>
    simp only [digitP] at h
    by_cases hc : c.isDigit
    · rw [if_pos hc] at h
      cases h
      simp
    · rw [if_neg hc] at h
      simp at h

theorem commaP_consuming : Consuming commaP := by
  intro input v r h
  cases input with
  | nil => simp [commaP] at h
  | cons c rest =>
    simp only [commaP] at h
    by_cases hc : c = ','
    · rw [if_pos hc] at h
      cases h
      simp
    · rw [if_neg hc] at h
      simp at h

theorem loops_terminate_with_consuming_parsers_witness :
    (∃ res, SepBy.parse ⟨digitP, commaP⟩ 4 ['1', ',', '2'] = some res) ∧
    (∃ res, Repeat.parse ⟨charP⟩ 3 ['a', 'b'] = some res) ∧
    (Many.parseEv 2 ⟨charP⟩ ['a']).calls ≤ 2 := by
  refine ⟨?_, ?_, ?_⟩
  · exact (@loops_terminate_with_consuming_parsers Unit Nat Unit Nat).1 ⟨digitP, commaP⟩
      digitP_consuming commaP_consuming ['1', ',', '2']
  · exact (@loops_terminate_with_consuming_parsers Unit Char Unit Nat).2.2.2.1 ⟨charP⟩
      charP_consuming ['a', 'b']
  · exact (@loops_terminate_with_consuming_parsers Unit Char Unit Nat).2.2.2.2.2 2 ⟨charP⟩ ['a']

end Multi
